import Mathlib

/-!
Verification of the simple-vector repository: a growable dynamic array
(`SimpleVector`, in the unnamed header) built on an owning raw-array handle
(`ArrayPtr`, in `simple-vector/array_ptr.h`).

The embedding below translates the C++ source into Lean:

* An `ArrayPtr`'s heap block is modelled by a `List α` holding the allocated
  slots, with `[]` standing for the null handle (consistent with the source,
  where `ArrayPtr(0)` yields a null pointer and never a zero-length block).
  Slots that the source leaves default-initialized or fills with `Type()` are
  modelled as `default : α`.
* `SimpleVector` is a record of `size_`, `capacity_` and the buffer contents
  `data_` (the `ArrayPtr` member collapsed to its block's contents).  The
  length of `data_` is the number of actually allocated slots, which the
  source keeps equal to `capacity_` except where it fails to (see the
  reservation-constructor theorems).
* Iterators (`Type*`) are modelled as indices into the buffer: `begin()` is
  index `0`, `end()` is index `size_`, and an operation returning an iterator
  returns the corresponding index.
* Pointer-based loops (`std::copy`, `std::copy_backward`, the erase loop)
  become the explicit index-passing helpers `copyInto`, `copyBackward` and
  `eraseShift`, writing with `List.set` (writes addressed outside the
  allocation — undefined behaviour in C++ — leave the list unchanged; all
  theorems below that rely on a write landing in the allocation carry the
  well-formedness hypothesis `WF` making the write in range).
-/

variable {α : Type} [Inhabited α]

/-- Models `std::copy(src.begin(), src.end(), dst + start)`: writes the elements of
`src` into the buffer `dst` at consecutive positions starting at `start`. -/
def copyInto : List α → Nat → List α → List α
  | dst, _, [] => dst
  | dst, start, x :: xs => copyInto (dst.set start x) (start + 1) xs

/-- Models `std::copy_backward(l + first, l + first + k, l + first + k + 1)`: shifts
the `k` slots `[first, first + k)` one position right, processing from the
highest index downwards exactly as `std::copy_backward` does. -/
def copyBackward (l : List α) (first : Nat) : Nat → List α
  | 0 => l
  | k + 1 => copyBackward (l.set (first + k + 1) (l.getD (first + k) default)) first k

/-- The left-shifting loop of `SimpleVector::Erase`
(`for (auto begin = pos; begin != end() - 1; ++begin) *begin = *(begin+1);`):
starting at index `i`, performs `k` steps of `l[i] := l[i+1]`. -/
def eraseShift : List α → Nat → Nat → List α
  | l, _, 0 => l
  | l, i, k + 1 => eraseShift (l.set i (l.getD (i + 1) default)) (i + 1) k

/-- The owning-handle view of `ArrayPtr<Type>` from `array_ptr.h`, used for the
assignment-operator theorems: only the identity of the owned block matters, so
the handle is an abstract address (`none` models `nullptr`). -/
structure ArrayPtr where
  raw_ptr_ : Option Nat := none

/-- Embeds `ArrayPtr::operator=(const ArrayPtr&)` acting on the pair
`(*this, other)`.  The flag `aliased` models the pointer-identity test
`this == &other`: when it is true the two sides are the same object and the
operator returns immediately; otherwise the source handle is exchanged with
`nullptr` and stored into `*this` (the source is nulled, not cloned). -/
def ArrayPtr.copyAssign (self other : ArrayPtr) (aliased : Bool) : ArrayPtr × ArrayPtr :=
  if aliased then (self, other)
  else ({ raw_ptr_ := other.raw_ptr_ }, { raw_ptr_ := none })

/-- Embeds `ArrayPtr::operator=(ArrayPtr&&)` acting on the pair `(*this, other)`,
with the same `this == &other` flag; the body is identical to the
copy-assignment operator's. -/
def ArrayPtr.moveAssign (self other : ArrayPtr) (aliased : Bool) : ArrayPtr × ArrayPtr :=
  if aliased then (self, other)
  else ({ raw_ptr_ := other.raw_ptr_ }, { raw_ptr_ := none })

/-- Embeds `SimpleVector<Type>`: logical size, capacity, and the contents of the
allocated block owned by the `data_` member (`[]` models a null `ArrayPtr`).
The field defaults are the member initializers of the source. -/
structure SimpleVector (α : Type) where
  size_ : Nat := 0
  capacity_ : Nat := 0
  data_ : List α := []

namespace SimpleVector

/-- Embeds `SimpleVector() = default`. -/
def mkDefault : SimpleVector α := {}

/-- Embeds `SimpleVector(size_t size)`: allocates `size` slots and fills them with
`Type()`. -/
def mkSized (size : Nat) : SimpleVector α :=
  { size_ := size, capacity_ := size, data_ := List.replicate size default }

/-- Embeds `SimpleVector(size_t size, const Type& value)`: allocates `size` slots and
fills them with `value`. -/
def mkFilled (size : Nat) (value : α) : SimpleVector α :=
  { size_ := size, capacity_ := size, data_ := List.replicate size value }

/-- Embeds `SimpleVector(std::initializer_list<Type> init)`: allocates `init.size()`
slots and copies the list into them. -/
def mkFromList (init : List α) : SimpleVector α :=
  { size_ := init.length, capacity_ := init.length, data_ := init }

/-- Embeds `size_t GetSize() const`. -/
def GetSize (v : SimpleVector α) : Nat := v.size_

/-- Embeds `size_t GetCapacity() const`. -/
def GetCapacity (v : SimpleVector α) : Nat := v.capacity_

/-- Embeds `bool IsEmpty() const`. -/
def IsEmpty (v : SimpleVector α) : Bool := v.size_ == 0

/-- Embeds `operator[](size_t index)`: unchecked read of slot `index` of the owned
block (out-of-allocation access is undefined behaviour in the source and is
modelled by the `getD` default). -/
def get (v : SimpleVector α) (index : Nat) : α := v.data_.getD index default

/-- Embeds `Type& At(size_t index)`: throws `std::out_of_range("Out of range")` when
`index >= size_`, otherwise returns `data_[index]`.  The method reads but
never writes the object's state, so it is embedded as a pure function of the
vector. -/
def At (v : SimpleVector α) (index : Nat) : Except String α :=
  if index ≥ v.size_ then Except.error ("Out of range")
  else Except.ok (v.data_.getD index default)

/-- Embeds `void Clear()`. -/
def Clear (v : SimpleVector α) : SimpleVector α := { v with size_ := 0 }

/-- Embeds `void Resize(size_t new_size)`: when growing past the capacity, allocates
`new_size` slots, fills them all with `Type()` (`std::generate`) and moves the
`size_` live elements over; then (in all cases) default-fills the newly
exposed slots `[size_, new_size)` when `new_size > size_`; finally sets
`size_ = new_size`. -/
def Resize (v : SimpleVector α) (new_size : Nat) : SimpleVector α :=
  let v1 :=
    if v.capacity_ < new_size then
      let temp := copyInto (List.replicate new_size default) 0 (v.data_.take v.size_)
      { v with data_ := temp, capacity_ := new_size }
    else v
  let v2 :=
    if v1.size_ < new_size then
      { v1 with data_ := copyInto v1.data_ v1.size_ (List.replicate (new_size - v1.size_) default) }
    else v1
  { v2 with size_ := new_size }

/-- Embeds `void PushBack(const Type&)` (the rvalue overload differs only in copying
versus moving the same values, which coincide in this value model): when
`size_ >= capacity_`, reallocates to `capacity_ == 0 ? 1 : capacity_ * 2`
default-filled slots and copies the live elements over; then writes the
element at index `size_` and increments `size_`. -/
def PushBack (v : SimpleVector α) (element : α) : SimpleVector α :=
  let v1 :=
    if v.size_ ≥ v.capacity_ then
      let increased_capacity := if v.capacity_ = 0 then 1 else v.capacity_ * 2
      let temp := copyInto (List.replicate increased_capacity default) 0 (v.data_.take v.size_)
      { v with data_ := temp, capacity_ := increased_capacity }
    else v
  { v1 with data_ := v1.data_.set v1.size_ element, size_ := v1.size_ + 1 }

/-- Embeds `void PopBack()`: `--size_` (the source requires `size_ > 0`; the
underflow of `size_t` on an empty vector is outside the modelled behaviour,
and every use below is guarded by `0 < size_`). -/
def PopBack (v : SimpleVector α) : SimpleVector α := { v with size_ := v.size_ - 1 }

/-- Embeds `void Reserve(size_t reserved_capacity)`: no-op when the request does not
exceed `capacity_`; otherwise allocates `reserved_capacity` slots (the
allocation's default-initialized tail and the `std::fill` of the first
`capacity_` slots are both `default` here), copies the `size_` live elements
over, and sets `capacity_` to the request. -/
def Reserve (v : SimpleVector α) (reserved_capacity : Nat) : SimpleVector α :=
  if reserved_capacity ≤ v.capacity_ then v
  else
    let new_data := copyInto (List.replicate reserved_capacity default) 0 (v.data_.take v.size_)
    { v with data_ := new_data, capacity_ := reserved_capacity }

/-- Embeds `SimpleVector(ReserveProxyObj obj)`: the members start at their
initializers (`size_ = 0`, `capacity_ = 0`, null `data_`), then the body sets
`capacity_ = obj.capacity` and calls `Reserve(capacity_)`. -/
def mkFromReserveProxy (requested : Nat) : SimpleVector α :=
  Reserve { mkDefault with capacity_ := requested } requested

/-- Embeds `Iterator Erase(Iterator pos)` with `pos = begin() + removing_index`:
shifts every element after the position one slot left, decrements `size_`,
and returns an iterator to (the index of) the removed position. -/
def Erase (v : SimpleVector α) (removing_index : Nat) : SimpleVector α × Nat :=
  let shifted := eraseShift v.data_ removing_index (v.size_ - 1 - removing_index)
  ({ v with data_ := shifted, size_ := v.size_ - 1 }, removing_index)

/-- Embeds `void swap(SimpleVector&)`: exchanges the buffer handles, the sizes and
the capacities of the two objects, returning the resulting pair. -/
def swap (v other : SimpleVector α) : SimpleVector α × SimpleVector α :=
  ({ data_ := other.data_, size_ := other.size_, capacity_ := other.capacity_ },
   { data_ := v.data_, size_ := v.size_, capacity_ := v.capacity_ })

/-- Embeds `Iterator Insert(Iterator pos, const Type&)` with
`pos = begin() + inserting_index` (the rvalue overload again coincides in
this value model): on reallocation, copies the prefix `[0, pos)`, writes the
element, and copies the suffix `[pos, size_)` one slot later; otherwise
shifts `[pos, size_)` right with `std::copy_backward` and writes the element
in place.  Increments `size_` and returns (the index of) the insertion
position. -/
def Insert (v : SimpleVector α) (inserting_index : Nat) (element : α) :
    SimpleVector α × Nat :=
  let v1 :=
    if v.size_ ≥ v.capacity_ then
      let increased_capacity := if v.capacity_ = 0 then 1 else v.capacity_ * 2
      let temp := copyInto (List.replicate increased_capacity default) 0
        (v.data_.take inserting_index)
      let temp := temp.set inserting_index element
      let temp := copyInto temp (inserting_index + 1)
        ((v.data_.take v.size_).drop inserting_index)
      { v with data_ := temp, capacity_ := increased_capacity }
    else
      let shifted := copyBackward v.data_ inserting_index (v.size_ - inserting_index)
      { v with data_ := shifted.set inserting_index element }
  ({ v1 with size_ := v1.size_ + 1 }, inserting_index)

/-- The live range `[begin(), end())` of a vector: the first `size_` slots of
the owned block. -/
def live (v : SimpleVector α) : List α := v.data_.take v.size_

/-- Well-formedness: the owned block has exactly `capacity_` allocated slots
and the live prefix fits in it.  Every construction path of the source except
the broken reservation constructor establishes this. -/
def WF (v : SimpleVector α) : Prop :=
  v.data_.length = v.capacity_ ∧ v.size_ ≤ v.capacity_

instance (v : SimpleVector α) : Decidable (WF v) := by
  unfold WF
  infer_instance

end SimpleVector

section Comparisons

variable [LinearOrder α]

/-- Models `std::equal(first1, last1, first2)` on the live range of the left vector
against the start of a buffer: compares element-wise, reading exactly as many
elements of the second range as the first has (running past the second
buffer — undefined behaviour in C++ — yields `false`). -/
def stdEqual : List α → List α → Bool
  | [], _ => true
  | _ :: _, [] => false
  | x :: xs, y :: ys => decide (x = y) && stdEqual xs ys

/-- Models `std::lexicographical_compare(first1, last1, first2, last2)` with
element-wise `operator<`. -/
def lexCompare : List α → List α → Bool
  | _, [] => false
  | [], _ :: _ => true
  | x :: xs, y :: ys =>
    if x < y then true
    else if y < x then false
    else lexCompare xs ys

namespace SimpleVector

/-- Embeds `operator==`: `lhs.GetSize() == rhs.GetSize() &&
std::equal(lhs.begin(), lhs.end(), rhs.begin())`. -/
def opEq (lhs rhs : SimpleVector α) : Bool :=
  decide (lhs.GetSize = rhs.GetSize) && stdEqual (live lhs) rhs.data_

/-- Embeds `operator!=`: `!(lhs == rhs)`. -/
def opNe (lhs rhs : SimpleVector α) : Bool := !(opEq lhs rhs)

/-- Embeds `operator<`: `std::lexicographical_compare` over the two live ranges. -/
def opLt (lhs rhs : SimpleVector α) : Bool := lexCompare (live lhs) (live rhs)

/-- Embeds `operator<=`: `lhs < rhs || lhs == rhs`. -/
def opLe (lhs rhs : SimpleVector α) : Bool := opLt lhs rhs || opEq lhs rhs

/-- Embeds `operator>`: `rhs < lhs`. -/
def opGt (lhs rhs : SimpleVector α) : Bool := opLt rhs lhs

/-- Embeds `operator>=`: `(rhs < lhs) || (rhs == lhs)`. -/
def opGe (lhs rhs : SimpleVector α) : Bool := opLt rhs lhs || opEq rhs lhs

end SimpleVector

end Comparisons

/-! ### Lemmas about the loop helpers -/

theorem set_at_length : ∀ (l₁ : List α) (y x : α) (l₂ : List α),
    (l₁ ++ x :: l₂).set l₁.length y = l₁ ++ y :: l₂
  | [], _, _, _ => rfl
  | a :: l₁, y, x, l₂ => by simpa using set_at_length l₁ y x l₂

theorem getD_at_length : ∀ (l₁ : List α) (x : α) (l₂ : List α) (d : α),
    (l₁ ++ x :: l₂).getD l₁.length d = x
  | [], _, _, _ => rfl
  | a :: l₁, x, l₂, d => by simpa using getD_at_length l₁ x l₂ d

theorem copyInto_length : ∀ (src dst : List α) (start : Nat),
    (copyInto dst start src).length = dst.length
  | [], _, _ => rfl
  | x :: xs, dst, start => by
    rw [copyInto, copyInto_length xs]
    simp

theorem copyInto_append : ∀ (src dst₁ dst₂ : List α), src.length ≤ dst₂.length →
    copyInto (dst₁ ++ dst₂) dst₁.length src = dst₁ ++ src ++ dst₂.drop src.length
  | [], dst₁, dst₂, _ => by simp [copyInto]
  | x :: xs, dst₁, [], h => by simp at h
  | x :: xs, dst₁, y :: ys, h => by
    rw [copyInto, set_at_length]
    have h1 : dst₁ ++ x :: ys = (dst₁ ++ [x]) ++ ys := by simp
    have h2 : dst₁.length + 1 = (dst₁ ++ [x]).length := by simp
    rw [h1, h2, copyInto_append xs (dst₁ ++ [x]) ys (by simpa using h)]
    simp

theorem copyInto_eq (src dst : List α) (start : Nat)
    (h : start + src.length ≤ dst.length) :
    copyInto dst start src = dst.take start ++ src ++ dst.drop (start + src.length) := by
  have hlen : (dst.take start).length = start := by
    simp only [List.length_take]
    omega
  calc copyInto dst start src
      = copyInto (dst.take start ++ dst.drop start) start src := by
        rw [List.take_append_drop]
    _ = copyInto (dst.take start ++ dst.drop start) (dst.take start).length src := by
        rw [hlen]
    _ = dst.take start ++ src ++ (dst.drop start).drop src.length := by
        apply copyInto_append
        simp only [List.length_drop]
        omega
    _ = dst.take start ++ src ++ dst.drop (start + src.length) := by
        rw [List.drop_drop]

theorem copyBackward_length : ∀ (k : Nat) (l : List α) (first : Nat),
    (copyBackward l first k).length = l.length
  | 0, _, _ => rfl
  | k + 1, l, first => by
    rw [copyBackward, copyBackward_length k]
    simp

theorem copyBackward_set (mid : List α) : ∀ (A rest : List α) (z x : α),
    (copyBackward (A ++ (mid ++ (z :: rest))) A.length mid.length).set A.length x
      = A ++ (x :: (mid ++ rest)) := by
  induction mid using List.reverseRecOn with
  | nil =>
    intro A rest z x
    simpa [copyBackward] using set_at_length A x z rest
  | append_singleton mid' m ih =>
    intro A rest z x
    have hk : (mid' ++ [m]).length = mid'.length + 1 := by simp
    rw [hk, copyBackward]
    have hget : (A ++ ((mid' ++ [m]) ++ (z :: rest))).getD (A.length + mid'.length) default
        = m := by
      have hre : A ++ ((mid' ++ [m]) ++ (z :: rest)) = (A ++ mid') ++ (m :: (z :: rest)) := by
        simp
      have hlen : A.length + mid'.length = (A ++ mid').length := by simp
      rw [hre, hlen, getD_at_length]
    have hset : (A ++ ((mid' ++ [m]) ++ (z :: rest))).set (A.length + mid'.length + 1) m
        = A ++ (mid' ++ (m :: (m :: rest))) := by
      have hre : A ++ ((mid' ++ [m]) ++ (z :: rest)) = (A ++ (mid' ++ [m])) ++ (z :: rest) := by
        simp
      have hlen : A.length + mid'.length + 1 = (A ++ (mid' ++ [m])).length := by
        simp only [List.length_append, List.length_cons, List.length_nil]
        omega
      rw [hre, hlen, set_at_length]
      simp
    rw [hget, hset, ih A (m :: rest) m x]
    simp

theorem eraseShift_length : ∀ (k : Nat) (l : List α) (i : Nat),
    (eraseShift l i k).length = l.length
  | 0, _, _ => rfl
  | k + 1, l, i => by
    rw [eraseShift, eraseShift_length k]
    simp

theorem eraseShift_eq : ∀ (mid A rest : List α) (x : α),
    eraseShift (A ++ (x :: (mid ++ rest))) A.length mid.length
      = A ++ (mid ++ (mid.getLastD x :: rest))
  | [], A, rest, x => by simp [eraseShift]
  | m :: mid', A, rest, x => by
    rw [show (m :: mid').length = mid'.length + 1 from rfl, eraseShift]
    have hget : (A ++ (x :: ((m :: mid') ++ rest))).getD (A.length + 1) default = m := by
      have hre : A ++ (x :: ((m :: mid') ++ rest)) = (A ++ [x]) ++ (m :: (mid' ++ rest)) := by
        simp
      have hlen : A.length + 1 = (A ++ [x]).length := by simp
      rw [hre, hlen, getD_at_length]
    have hset : (A ++ (x :: ((m :: mid') ++ rest))).set A.length m
        = (A ++ [m]) ++ (m :: (mid' ++ rest)) := by
      rw [set_at_length]
      simp
    rw [hget, hset]
    have hlen2 : A.length + 1 = (A ++ [m]).length := by simp
    rw [hlen2, eraseShift_eq mid' (A ++ [m]) rest m, List.getLastD_cons]
    simp

/-- Splitting a list around an index: for `j < s ≤ l.length`, the list is its
first `j` elements, the element at `j`, the elements in `(j, s)`, and the tail
from `s` on. -/
theorem decomp_at (l : List α) (j s : Nat) (hj : j < s) (hs : s ≤ l.length) :
    l = l.take j ++ (l.getD j default :: (((l.take s).drop (j + 1)) ++ l.drop s)) := by
  have hjl : j < l.length := by omega
  have h1 : l.take s = l.take j ++ (l.getD j default :: (l.take s).drop (j + 1)) := by
    have hjs : j < (l.take s).length := by
      simp only [List.length_take]
      omega
    have h2 : (l.take s).drop j = l.getD j default :: (l.take s).drop (j + 1) := by
      rw [List.drop_eq_getElem_cons hjs]
      congr 1
      rw [List.getD_eq_getElem l default hjl]
      exact List.getElem_take ..
    calc l.take s = (l.take s).take j ++ (l.take s).drop j := (List.take_append_drop ..).symm
      _ = l.take j ++ (l.take s).drop j := by
          rw [List.take_take, Nat.min_eq_left (Nat.le_of_lt hj)]
      _ = l.take j ++ (l.getD j default :: (l.take s).drop (j + 1)) := by rw [h2]
  calc l = l.take s ++ l.drop s := (List.take_append_drop ..).symm
    _ = (l.take j ++ (l.getD j default :: (l.take s).drop (j + 1))) ++ l.drop s := by
        rw [← h1]
    _ = _ := by simp

/-- Splitting a list around a segment: for `j ≤ s < l.length`, the list is its
first `j` elements, the elements in `[j, s)`, the element at `s`, and the tail
from `s + 1` on. -/
theorem decomp_mid (l : List α) (j s : Nat) (hj : j ≤ s) (hs : s < l.length) :
    l = l.take j ++ (((l.take s).drop j) ++ (l.getD s default :: l.drop (s + 1))) := by
  have h2 : l.drop s = l.getD s default :: l.drop (s + 1) := by
    rw [List.drop_eq_getElem_cons hs, List.getD_eq_getElem l default hs]
  have h1 : l.take s = l.take j ++ (l.take s).drop j := by
    calc l.take s = (l.take s).take j ++ (l.take s).drop j := (List.take_append_drop ..).symm
      _ = _ := by rw [List.take_take, Nat.min_eq_left hj]
  calc l = l.take s ++ l.drop s := (List.take_append_drop ..).symm
    _ = (l.take j ++ (l.take s).drop j) ++ (l.getD s default :: l.drop (s + 1)) := by
        rw [← h1, ← h2]
    _ = _ := by simp

theorem take_set_self (l : List α) (n : Nat) (x : α) : (l.set n x).take n = l.take n := by
  rw [List.set_take]
  exact List.set_eq_of_length_le (List.length_take_le ..)

theorem set_take_succ (l : List α) (n : Nat) (x : α) (hn : n < l.length) :
    (l.set n x).take (n + 1) = l.take n ++ [x] := by
  have hlen : (l.take n).length = n := by
    simp only [List.length_take]
    omega
  rw [List.set_eq_take_cons_drop x hn]
  calc (l.take n ++ x :: l.drop (n + 1)).take (n + 1)
      = (l.take n ++ x :: l.drop (n + 1)).take ((l.take n).length + 1) := by rw [hlen]
    _ = l.take n ++ (x :: l.drop (n + 1)).take 1 := List.take_append 1
    _ = l.take n ++ [x] := by simp

/-! ### Branch and field lemmas for the operations -/

namespace SimpleVector

theorem live_length (v : SimpleVector α) (h : WF v) : (live v).length = v.size_ := by
  obtain ⟨hlen, hsc⟩ := h
  simp only [live, List.length_take]
  omega

theorem PushBack_of_ge (v : SimpleVector α) (x : α) (hge : v.size_ ≥ v.capacity_) :
    PushBack v x =
      { size_ := v.size_ + 1,
        capacity_ := if v.capacity_ = 0 then 1 else v.capacity_ * 2,
        data_ := (copyInto
          (List.replicate (if v.capacity_ = 0 then 1 else v.capacity_ * 2) default) 0
          (v.data_.take v.size_)).set v.size_ x } := by
  simp only [PushBack]
  rw [if_pos hge]

theorem PushBack_of_lt (v : SimpleVector α) (x : α) (hlt : v.size_ < v.capacity_) :
    PushBack v x = { v with data_ := v.data_.set v.size_ x, size_ := v.size_ + 1 } := by
  simp only [PushBack]
  rw [if_neg (by omega)]

theorem PushBack_size (v : SimpleVector α) (x : α) : (PushBack v x).size_ = v.size_ + 1 := by
  by_cases hge : v.size_ ≥ v.capacity_
  · rw [PushBack_of_ge v x hge]
  · rw [PushBack_of_lt v x (by omega)]

theorem PushBack_capacity_of_ge (v : SimpleVector α) (x : α) (hge : v.size_ ≥ v.capacity_) :
    (PushBack v x).capacity_ = if v.capacity_ = 0 then 1 else v.capacity_ * 2 := by
  rw [PushBack_of_ge v x hge]

theorem PushBack_capacity_of_lt (v : SimpleVector α) (x : α) (hlt : v.size_ < v.capacity_) :
    (PushBack v x).capacity_ = v.capacity_ := by
  rw [PushBack_of_lt v x hlt]

theorem grown_data_eq (v : SimpleVector α) (c : Nat) (h : WF v) (hc : v.size_ < c) :
    copyInto (List.replicate c (default : α)) 0 (v.data_.take v.size_)
      = live v ++ List.replicate (c - v.size_) default := by
  obtain ⟨hlen, hsc⟩ := h
  have hslen : (v.data_.take v.size_).length = v.size_ := by
    simp only [List.length_take]
    omega
  rw [copyInto_eq _ _ 0 (by simp only [List.length_replicate, hslen]; omega)]
  rw [hslen]
  simp only [List.take_zero, List.nil_append, List.drop_replicate, Nat.zero_add, live]

theorem PushBack_live (v : SimpleVector α) (x : α) (h : WF v) :
    live (PushBack v x) = live v ++ [x] := by
  obtain ⟨hlen, hsc⟩ := h
  have hll : (live v).length = v.size_ := live_length v ⟨hlen, hsc⟩
  by_cases hge : v.size_ ≥ v.capacity_
  · rw [PushBack_of_ge v x hge]
    have hsc2 : v.size_ < (if v.capacity_ = 0 then 1 else v.capacity_ * 2) := by
      split <;> omega
    simp only [live]
    rw [grown_data_eq v _ ⟨hlen, hsc⟩ hsc2]
    rw [set_take_succ _ _ _ (by simp only [List.length_append, List.length_replicate, hll]; omega)]
    congr 1
    exact List.take_left' hll
  · rw [PushBack_of_lt v x (by omega)]
    simp only [live]
    rw [set_take_succ _ _ _ (by omega)]

theorem PushBack_WF (v : SimpleVector α) (x : α) (h : WF v) : WF (PushBack v x) := by
  obtain ⟨hlen, hsc⟩ := h
  by_cases hge : v.size_ ≥ v.capacity_
  · rw [PushBack_of_ge v x hge]
    refine ⟨?_, ?_⟩
    · simp only [List.length_set, copyInto_length, List.length_replicate]
    · simp only []
      split <;> omega
  · rw [PushBack_of_lt v x (by omega)]
    exact ⟨by simpa using hlen, by simp only []; omega⟩

theorem Insert_of_ge (v : SimpleVector α) (j : Nat) (x : α) (hge : v.size_ ≥ v.capacity_) :
    Insert v j x =
      ({ size_ := v.size_ + 1,
         capacity_ := if v.capacity_ = 0 then 1 else v.capacity_ * 2,
         data_ := copyInto
           ((copyInto
              (List.replicate (if v.capacity_ = 0 then 1 else v.capacity_ * 2) default) 0
              (v.data_.take j)).set j x)
           (j + 1) ((v.data_.take v.size_).drop j) }, j) := by
  simp only [Insert]
  rw [if_pos hge]

theorem Insert_of_lt (v : SimpleVector α) (j : Nat) (x : α) (hlt : v.size_ < v.capacity_) :
    Insert v j x =
      ({ v with data_ := (copyBackward v.data_ j (v.size_ - j)).set j x,
                size_ := v.size_ + 1 }, j) := by
  simp only [Insert]
  rw [if_neg (by omega)]

theorem Insert_snd (v : SimpleVector α) (j : Nat) (x : α) : (Insert v j x).2 = j := by
  by_cases hge : v.size_ ≥ v.capacity_
  · rw [Insert_of_ge v j x hge]
  · rw [Insert_of_lt v j x (by omega)]

theorem Insert_size (v : SimpleVector α) (j : Nat) (x : α) :
    (Insert v j x).1.size_ = v.size_ + 1 := by
  by_cases hge : v.size_ ≥ v.capacity_
  · rw [Insert_of_ge v j x hge]
  · rw [Insert_of_lt v j x (by omega)]

theorem Insert_live (v : SimpleVector α) (j : Nat) (x : α) (h : WF v) (hj : j ≤ v.size_) :
    live (Insert v j x).1 = (live v).take j ++ (x :: (live v).drop j) := by
  obtain ⟨hlen, hsc⟩ := h
  have htj : (v.data_.take j).length = j := by
    simp only [List.length_take]
    omega
  have hts : (v.data_.take v.size_).length = v.size_ := by
    simp only [List.length_take]
    omega
  have htts : (v.data_.take v.size_).take j = v.data_.take j := by
    rw [List.take_take]
    congr 1
    omega
  have hfront : (v.data_.take j ++ (x :: (v.data_.take v.size_).drop j)).length
      = v.size_ + 1 := by
    simp only [List.length_append, List.length_cons, List.length_drop, htj, hts]
    omega
  by_cases hge : v.size_ ≥ v.capacity_
  · rw [Insert_of_ge v j x hge]
    set c := if v.capacity_ = 0 then 1 else v.capacity_ * 2 with hcdef
    have hc1 : v.size_ < c := by
      rw [hcdef]
      split <;> omega
    have hjc : j < c := by omega
    have hT1 : copyInto (List.replicate c (default : α)) 0 (v.data_.take j)
        = v.data_.take j ++ List.replicate (c - j) default := by
      rw [copyInto_eq _ _ 0 (by simp only [List.length_replicate, htj]; omega)]
      rw [htj]
      simp only [List.take_zero, List.nil_append, List.drop_replicate, Nat.zero_add]
    have hT2 : (v.data_.take j ++ List.replicate (c - j) (default : α)).set j x
        = v.data_.take j ++ (x :: List.replicate (c - j - 1) default) := by
      have hrep : List.replicate (c - j) (default : α)
          = default :: List.replicate (c - j - 1) default := by
        rw [← List.replicate_succ]
        congr 1
        omega
      have hinst := set_at_length (v.data_.take j) x default
        (List.replicate (c - j - 1) (default : α))
      rw [htj] at hinst
      rw [hrep, hinst]
    have hT3 : copyInto (v.data_.take j ++ (x :: List.replicate (c - j - 1) (default : α)))
        (j + 1) ((v.data_.take v.size_).drop j)
        = (v.data_.take j ++ (x :: (v.data_.take v.size_).drop j))
            ++ List.replicate (c - v.size_ - 1) default := by
      have hdlen : ((v.data_.take v.size_).drop j).length = v.size_ - j := by
        simp only [List.length_drop, hts]
      have hre : v.data_.take j ++ (x :: List.replicate (c - j - 1) (default : α))
          = (v.data_.take j ++ [x]) ++ List.replicate (c - j - 1) default := by
        simp
      have hinst := copyInto_append ((v.data_.take v.size_).drop j) (v.data_.take j ++ [x])
        (List.replicate (c - j - 1) (default : α))
        (by simp only [hdlen, List.length_replicate]; omega)
      rw [show (v.data_.take j ++ [x]).length = j + 1 from by simp [htj]] at hinst
      rw [hre, hinst, hdlen, List.drop_replicate]
      rw [show c - j - 1 - (v.size_ - j) = c - v.size_ - 1 from by omega]
      simp
    rw [hT1, hT2, hT3]
    simp only [live]
    rw [List.take_left' hfront, htts]
  · have hlt : v.size_ < v.capacity_ := by omega
    rw [Insert_of_lt v j x hlt]
    have hmid : ((v.data_.take v.size_).drop j).length = v.size_ - j := by
      simp only [List.length_drop, hts]
    have hdm := decomp_mid v.data_ j v.size_ hj (by omega)
    have hinst := copyBackward_set ((v.data_.take v.size_).drop j) (v.data_.take j)
      (v.data_.drop (v.size_ + 1)) (v.data_.getD v.size_ default) x
    rw [htj, hmid] at hinst
    simp only [live]
    conv_lhs => rw [hdm]
    rw [hinst]
    have hre : v.data_.take j
          ++ (x :: ((v.data_.take v.size_).drop j ++ v.data_.drop (v.size_ + 1)))
        = (v.data_.take j ++ (x :: (v.data_.take v.size_).drop j))
            ++ v.data_.drop (v.size_ + 1) := by
      simp
    rw [hre, List.take_left' hfront, htts]

theorem Insert_WF (v : SimpleVector α) (j : Nat) (x : α) (h : WF v) :
    WF (Insert v j x).1 := by
  obtain ⟨hlen, hsc⟩ := h
  by_cases hge : v.size_ ≥ v.capacity_
  · rw [Insert_of_ge v j x hge]
    refine ⟨?_, ?_⟩
    · simp only [copyInto_length, List.length_set, List.length_replicate]
    · simp only []
      split <;> omega
  · rw [Insert_of_lt v j x (by omega)]
    refine ⟨?_, ?_⟩
    · simp only [List.length_set, copyBackward_length, hlen]
    · simp only []
      omega

theorem Erase_live (v : SimpleVector α) (j : Nat) (h : WF v) (hj : j < v.size_) :
    live (Erase v j).1 = (live v).take j ++ (live v).drop (j + 1) := by
  obtain ⟨hlen, hsc⟩ := h
  have htj : (v.data_.take j).length = j := by
    simp only [List.length_take]
    omega
  have hmid : ((v.data_.take v.size_).drop (j + 1)).length = v.size_ - 1 - j := by
    simp only [List.length_drop, List.length_take]
    omega
  have hda := decomp_at v.data_ j v.size_ hj (by omega)
  have hinst := eraseShift_eq ((v.data_.take v.size_).drop (j + 1)) (v.data_.take j)
    (v.data_.drop v.size_) (v.data_.getD j default)
  rw [htj, hmid] at hinst
  simp only [Erase, live]
  conv_lhs => rw [hda]
  rw [hinst]
  have hre : v.data_.take j ++ ((v.data_.take v.size_).drop (j + 1)
        ++ (((v.data_.take v.size_).drop (j + 1)).getLastD (v.data_.getD j default)
            :: v.data_.drop v.size_))
      = (v.data_.take j ++ (v.data_.take v.size_).drop (j + 1))
          ++ (((v.data_.take v.size_).drop (j + 1)).getLastD (v.data_.getD j default)
              :: v.data_.drop v.size_) := by
    simp
  rw [hre]
  have hfront : (v.data_.take j ++ (v.data_.take v.size_).drop (j + 1)).length
      = v.size_ - 1 := by
    simp only [List.length_append, htj, hmid]
    omega
  rw [List.take_left' hfront]
  rw [show (v.data_.take v.size_).take j = v.data_.take j from by
    rw [List.take_take]
    congr 1
    omega]

theorem Erase_size (v : SimpleVector α) (j : Nat) : (Erase v j).1.size_ = v.size_ - 1 := rfl

theorem Erase_capacity (v : SimpleVector α) (j : Nat) : (Erase v j).1.capacity_ = v.capacity_ :=
  rfl

theorem Erase_WF (v : SimpleVector α) (j : Nat) (h : WF v) (hj : j < v.size_) :
    WF (Erase v j).1 := by
  obtain ⟨hlen, hsc⟩ := h
  exact ⟨by simp only [Erase, eraseShift_length, hlen], by simp only [Erase]; omega⟩

theorem Resize_size (v : SimpleVector α) (n : Nat) : (Resize v n).size_ = n := rfl

theorem Resize_of_gt (v : SimpleVector α) (n : Nat) (hc : v.capacity_ < n)
    (hs : v.size_ < n) :
    Resize v n =
      { size_ := n, capacity_ := n,
        data_ := copyInto (copyInto (List.replicate n default) 0 (v.data_.take v.size_))
          v.size_ (List.replicate (n - v.size_) default) } := by
  simp only [Resize]
  rw [if_pos hc]
  split
  · rfl
  case isFalse hcond => exact absurd hs hcond

theorem Resize_of_mid (v : SimpleVector α) (n : Nat) (hc : n ≤ v.capacity_)
    (hs : v.size_ < n) :
    Resize v n =
      { v with size_ := n,
               data_ := copyInto v.data_ v.size_ (List.replicate (n - v.size_) default) } := by
  simp only [Resize]
  rw [if_neg (show ¬(v.capacity_ < n) from by omega)]
  split
  · rfl
  case isFalse hcond => exact absurd hs hcond

theorem Resize_of_le (v : SimpleVector α) (n : Nat) (hs : n ≤ v.size_) (hc : n ≤ v.capacity_) :
    Resize v n = { v with size_ := n } := by
  simp only [Resize]
  rw [if_neg (show ¬(v.capacity_ < n) from by omega)]
  split
  case isTrue hcond =>
    have hcond2 : v.size_ < n := hcond
    omega
  · rfl

theorem Resize_capacity_of_gt (v : SimpleVector α) (n : Nat) (hc : v.capacity_ < n)
    (hs : v.size_ < n) : (Resize v n).capacity_ = n := by
  rw [Resize_of_gt v n hc hs]

theorem Resize_capacity_of_le (v : SimpleVector α) (n : Nat) (hc : n ≤ v.capacity_) :
    (Resize v n).capacity_ = v.capacity_ := by
  by_cases hs : v.size_ < n
  · rw [Resize_of_mid v n hc hs]
  · rw [Resize_of_le v n (by omega) hc]

theorem Resize_data_of_gt (v : SimpleVector α) (n : Nat) (h : WF v) (hc : v.capacity_ < n) :
    (Resize v n).data_ = live v ++ List.replicate (n - v.size_) default := by
  obtain ⟨hlen, hsc⟩ := h
  have hs : v.size_ < n := by omega
  have hll : (live v).length = v.size_ := live_length v ⟨hlen, hsc⟩
  rw [Resize_of_gt v n hc hs]
  show copyInto (copyInto (List.replicate n default) 0 (v.data_.take v.size_))
      v.size_ (List.replicate (n - v.size_) default) = _
  rw [grown_data_eq v n ⟨hlen, hsc⟩ hs]
  have hinst := copyInto_append (List.replicate (n - v.size_) (default : α)) (live v)
    (List.replicate (n - v.size_) (default : α)) (by simp)
  rw [hll] at hinst
  rw [hinst]
  simp

theorem Resize_live_of_gt (v : SimpleVector α) (n : Nat) (h : WF v) (hc : v.capacity_ < n) :
    live (Resize v n) = live v ++ List.replicate (n - v.size_) default := by
  obtain ⟨h1, h2⟩ := h
  have hd := Resize_data_of_gt v n ⟨h1, h2⟩ hc
  simp only [live] at hd ⊢
  rw [hd, Resize_size]
  apply List.take_of_length_le
  simp only [List.length_append, List.length_replicate, List.length_take, h1]
  rw [Nat.min_eq_left h2]
  omega

theorem Resize_WF_of_gt (v : SimpleVector α) (n : Nat) (h : WF v) (hc : v.capacity_ < n) :
    WF (Resize v n) := by
  obtain ⟨h1, h2⟩ := h
  have hd := Resize_data_of_gt v n ⟨h1, h2⟩ hc
  have hcap := Resize_capacity_of_gt v n hc (by omega)
  refine ⟨?_, ?_⟩
  · rw [hd, hcap]
    simp only [List.length_append, List.length_replicate, live, List.length_take, h1]
    rw [Nat.min_eq_left h2]
    omega
  · rw [Resize_size, hcap]

theorem Resize_data_of_mid (v : SimpleVector α) (n : Nat) (h : WF v) (hc : n ≤ v.capacity_)
    (hs : v.size_ < n) :
    (Resize v n).data_
      = v.data_.take v.size_ ++ List.replicate (n - v.size_) default ++ v.data_.drop n := by
  obtain ⟨hlen, hsc⟩ := h
  rw [Resize_of_mid v n hc hs]
  show copyInto v.data_ v.size_ (List.replicate (n - v.size_) default) = _
  rw [copyInto_eq _ _ _ (by simp only [List.length_replicate]; omega)]
  simp only [List.length_replicate]
  rw [show v.size_ + (n - v.size_) = n from by omega]

theorem Resize_live_of_mid (v : SimpleVector α) (n : Nat) (h : WF v) (hc : n ≤ v.capacity_)
    (hs : v.size_ < n) :
    live (Resize v n) = live v ++ List.replicate (n - v.size_) default := by
  obtain ⟨hlen, hsc⟩ := h
  have hd := Resize_data_of_mid v n ⟨hlen, hsc⟩ hc hs
  simp only [live] at hd ⊢
  rw [hd, Resize_size]
  have hfront : (v.data_.take v.size_ ++ List.replicate (n - v.size_) (default : α)).length
      = n := by
    simp only [List.length_append, List.length_replicate, List.length_take]
    omega
  rw [List.take_left' hfront]

theorem Resize_WF_of_mid (v : SimpleVector α) (n : Nat) (h : WF v) (hc : n ≤ v.capacity_)
    (hs : v.size_ < n) : WF (Resize v n) := by
  obtain ⟨hlen, hsc⟩ := h
  refine ⟨?_, ?_⟩
  · rw [Resize_data_of_mid v n ⟨hlen, hsc⟩ hc hs, Resize_capacity_of_le v n hc]
    simp only [List.length_append, List.length_replicate, List.length_take, List.length_drop]
    omega
  · rw [Resize_size, Resize_capacity_of_le v n hc]
    omega

theorem Resize_live_of_le (v : SimpleVector α) (n : Nat) (hs : n ≤ v.size_)
    (hc : n ≤ v.capacity_) : live (Resize v n) = (live v).take n := by
  rw [Resize_of_le v n hs hc]
  simp only [live, List.take_take]
  congr 1
  omega

theorem Reserve_of_le (v : SimpleVector α) (n : Nat) (h : n ≤ v.capacity_) :
    Reserve v n = v := by
  simp only [Reserve]
  rw [if_pos h]

theorem Reserve_of_gt (v : SimpleVector α) (n : Nat) (h : v.capacity_ < n) :
    Reserve v n = { v with
      data_ := copyInto (List.replicate n default) 0 (v.data_.take v.size_),
      capacity_ := n } := by
  simp only [Reserve]
  rw [if_neg (by omega)]

theorem Reserve_size (v : SimpleVector α) (n : Nat) : (Reserve v n).size_ = v.size_ := by
  by_cases h : n ≤ v.capacity_
  · rw [Reserve_of_le v n h]
  · rw [Reserve_of_gt v n (by omega)]

theorem Reserve_capacity_ge (v : SimpleVector α) (n : Nat) :
    v.capacity_ ≤ (Reserve v n).capacity_ := by
  by_cases h : n ≤ v.capacity_
  · rw [Reserve_of_le v n h]
  · rw [Reserve_of_gt v n (by omega)]
    show v.capacity_ ≤ n
    omega

theorem mkFromReserveProxy_eq (n : Nat) :
    (mkFromReserveProxy n : SimpleVector α) = { size_ := 0, capacity_ := n, data_ := [] } := by
  simp only [mkFromReserveProxy, mkDefault]
  exact Reserve_of_le _ n (le_refl n)

theorem swap_eq (v other : SimpleVector α) : swap v other = (other, v) := rfl

/-- The element at a live index is read from the underlying buffer. -/
theorem live_getD (v : SimpleVector α) (i : Nat) (h : WF v) (hi : i < v.size_) :
    (live v).getD i default = v.data_.getD i default := by
  obtain ⟨h1, h2⟩ := h
  simp only [live]
  rw [List.getD_eq_getElem _ _ (by simp only [List.length_take]; omega),
    List.getD_eq_getElem _ _ (by omega)]
  exact List.getElem_take ..

end SimpleVector

section ComparisonLemmas

variable [LinearOrder α]

theorem stdEqual_iff : ∀ (xs ys : List α),
    stdEqual xs ys = true
      ↔ xs.length ≤ ys.length ∧ ∀ i, i < xs.length → xs.getD i default = ys.getD i default
  | [], ys => by simp [stdEqual]
  | x :: xs, [] => by simp [stdEqual]
  | x :: xs, y :: ys => by
    rw [stdEqual]
    simp only [Bool.and_eq_true, decide_eq_true_eq, stdEqual_iff xs ys]
    constructor
    · rintro ⟨hxy, hle, hall⟩
      refine ⟨by simpa using hle, ?_⟩
      intro i hi
      cases i with
      | zero => simpa using hxy
      | succ i2 => simpa using hall i2 (by simpa using hi)
    · rintro ⟨hle, hall⟩
      refine ⟨by simpa using hall 0 (by simp), by simpa using hle, ?_⟩
      intro i hi
      simpa using hall (i + 1) (by simpa using hi)

/-- Boolean `lexCompare` decides exactly the lexicographic strict order on lists
(`List.lt`, whose constructors mirror `std::lexicographical_compare`). -/
theorem lexCompare_iff : ∀ (xs ys : List α), lexCompare xs ys = true ↔ List.lt xs ys
  | [], [] => by
    constructor
    · intro hfalse
      simp [lexCompare] at hfalse
    · intro hlt
      nomatch hlt
  | x :: xs, [] => by
    constructor
    · intro hfalse
      simp [lexCompare] at hfalse
    · intro hlt
      nomatch hlt
  | [], y :: ys => by
    constructor
    · intro _
      exact List.lt.nil y ys
    · intro _
      simp [lexCompare]
  | x :: xs, y :: ys => by
    rw [lexCompare]
    by_cases h1 : x < y
    · rw [if_pos h1]
      constructor
      · intro _
        exact List.lt.head xs ys h1
      · intro _
        rfl
    · rw [if_neg h1]
      by_cases h2 : y < x
      · rw [if_pos h2]
        constructor
        · intro hfalse
          simp at hfalse
        · intro hlt
          cases hlt with
          | head _ _ hxy => exact absurd hxy h1
          | tail hxy hyx _ => exact absurd h2 hyx
      · rw [if_neg h2]
        rw [lexCompare_iff xs ys]
        constructor
        · intro h3
          exact List.lt.tail h1 h2 h3
        · intro hlt
          cases hlt with
          | head _ _ hxy => exact absurd hxy h1
          | tail _ _ h3 => exact h3

namespace SimpleVector

theorem opEq_iff (l r : SimpleVector α) (hl : WF l) (hr : WF r) :
    opEq l r = true ↔ l.GetSize = r.GetSize ∧ ∀ i, i < l.GetSize → l.get i = r.get i := by
  obtain ⟨hl1, hl2⟩ := hl
  obtain ⟨hr1, hr2⟩ := hr
  have hll : (live l).length = l.size_ := live_length l ⟨hl1, hl2⟩
  simp only [opEq, Bool.and_eq_true, decide_eq_true_eq, stdEqual_iff, GetSize, get, hll]
  constructor
  · rintro ⟨hsz, _, hall⟩
    refine ⟨hsz, ?_⟩
    intro i hi
    have hi2 := hall i hi
    rw [live_getD l i ⟨hl1, hl2⟩ hi] at hi2
    exact hi2
  · rintro ⟨hsz, hall⟩
    refine ⟨hsz, by omega, ?_⟩
    intro i hi
    rw [live_getD l i ⟨hl1, hl2⟩ hi]
    exact hall i hi

end SimpleVector

end ComparisonLemmas

/-! ### Reachable states of a growable array -/

namespace SimpleVector

/-- The vectors reachable from the construction variants of the source by the
mutating operations, each invoked with its documented precondition
(`PopBack` needs a nonempty vector; `Insert` positions lie in
`[begin(), end()]`, `Erase` positions in `[begin(), end())`). -/
inductive Reachable : SimpleVector α → Prop where
  | mkDefault_mem : Reachable mkDefault
  | mkSized_mem (n : Nat) : Reachable (mkSized n)
  | mkFilled_mem (n : Nat) (x : α) : Reachable (mkFilled n x)
  | mkFromList_mem (init : List α) : Reachable (mkFromList init)
  | mkFromReserveProxy_mem (n : Nat) : Reachable (mkFromReserveProxy n)
  | pushBack_mem (v : SimpleVector α) (x : α) : Reachable v → Reachable (PushBack v x)
  | popBack_mem (v : SimpleVector α) : Reachable v → 0 < v.size_ → Reachable (PopBack v)
  | insert_mem (v : SimpleVector α) (i : Nat) (x : α) : Reachable v → i ≤ v.size_ →
      Reachable (Insert v i x).1
  | erase_mem (v : SimpleVector α) (i : Nat) : Reachable v → i < v.size_ →
      Reachable (Erase v i).1
  | resize_mem (v : SimpleVector α) (n : Nat) : Reachable v → Reachable (Resize v n)
  | reserve_mem (v : SimpleVector α) (n : Nat) : Reachable v → Reachable (Reserve v n)
  | clear_mem (v : SimpleVector α) : Reachable v → Reachable (Clear v)
  | swap_fst_mem (v w : SimpleVector α) : Reachable v → Reachable w → Reachable (swap v w).1
  | swap_snd_mem (v w : SimpleVector α) : Reachable v → Reachable w → Reachable (swap v w).2

theorem Insert_capacity_of_ge (v : SimpleVector α) (i : Nat) (x : α)
    (hge : v.size_ ≥ v.capacity_) :
    (Insert v i x).1.capacity_ = if v.capacity_ = 0 then 1 else v.capacity_ * 2 := by
  rw [Insert_of_ge v i x hge]

theorem Insert_capacity_of_lt (v : SimpleVector α) (i : Nat) (x : α)
    (hlt : v.size_ < v.capacity_) : (Insert v i x).1.capacity_ = v.capacity_ := by
  rw [Insert_of_lt v i x hlt]

theorem reachable_size_le_capacity (v : SimpleVector α) (h : Reachable v) :
    v.size_ ≤ v.capacity_ := by
  induction h with
  | mkDefault_mem => exact Nat.le_refl 0
  | mkSized_mem n => exact Nat.le_refl n
  | mkFilled_mem n x => exact Nat.le_refl n
  | mkFromList_mem init => exact Nat.le_refl _
  | mkFromReserveProxy_mem n =>
      rw [mkFromReserveProxy_eq]
      exact Nat.zero_le n
  | pushBack_mem v x _ ih =>
      rw [PushBack_size]
      by_cases hge : v.size_ ≥ v.capacity_
      · rw [PushBack_capacity_of_ge v x hge]
        split <;> omega
      · rw [PushBack_capacity_of_lt v x (by omega)]
        omega
  | popBack_mem v _ hpos ih =>
      show v.size_ - 1 ≤ v.capacity_
      omega
  | insert_mem v i x _ hile ih =>
      rw [Insert_size]
      by_cases hge : v.size_ ≥ v.capacity_
      · rw [Insert_capacity_of_ge v i x hge]
        split <;> omega
      · rw [Insert_capacity_of_lt v i x (by omega)]
        omega
  | erase_mem v i _ hi ih =>
      rw [Erase_size, Erase_capacity]
      omega
  | resize_mem v n _ ih =>
      rw [Resize_size]
      by_cases hc : v.capacity_ < n
      · rw [Resize_capacity_of_gt v n hc (by omega)]
      · rw [Resize_capacity_of_le v n (by omega)]
        omega
  | reserve_mem v n _ ih =>
      rw [Reserve_size]
      have := Reserve_capacity_ge v n
      omega
  | clear_mem v _ ih =>
      exact Nat.zero_le _
  | swap_fst_mem v w _ _ ihv ihw =>
      rw [swap_eq]
      exact ihw
  | swap_snd_mem v w _ _ ihv ihw =>
      rw [swap_eq]
      exact ihv

end SimpleVector

open SimpleVector

/-! ### The claims -/

/-- C1: the claim says that `SimpleVector(Reserve(n))` for `n > 0` yields size
`0` and capacity `n` *with `n` allocated slots backing that capacity*, so that
a subsequent `PushBack` stores the value at index `0` without reallocating.
The size and capacity parts hold, but the constructor sets `capacity_ = n`
*before* calling `Reserve(n)`, so `Reserve` sees `n <= capacity_` and returns
without allocating: the buffer stays null (zero allocated slots, shown here
as `data_.length = 0` at `n = 1`).  The subsequent `PushBack` skips the
reallocation branch (size `0 <` capacity `1`) and writes through the null
pointer: in this embedding the out-of-allocation write is dropped, so the
vector reports size `1` while owning no slot at all — in the C++ source it is
a null-pointer dereference.  The claim (and the spec's table row) describe
the evident intent; the code is a slip. -/
theorem C1_reserve_constructor_bug :
    (mkFromReserveProxy 1 : SimpleVector Int).GetSize = 0
    ∧ (mkFromReserveProxy 1 : SimpleVector Int).GetCapacity = 1
    ∧ (mkFromReserveProxy 1 : SimpleVector Int).data_.length = 0
    ∧ (PushBack (mkFromReserveProxy 1 : SimpleVector Int) 42).size_ = 1
    ∧ (PushBack (mkFromReserveProxy 1 : SimpleVector Int) 42).data_ = [] := by
  refine ⟨rfl, rfl, rfl, rfl, rfl⟩

/-- C2 counterexample: the claim states that pushing `4` onto `[1,2,3]`
(size 3, capacity 3) yields capacity `8`; the source grows a full vector to
`capacity_ * 2 = 6`, not to `8`. -/
theorem C2_counterexample :
    (PushBack (mkFromList ([1, 2, 3] : List Int)) 4).GetCapacity ≠ 8 := by
  decide

/-- C2 (amended: capacity after `PushBack(4)` is `6 = 3 * 2`, not `8`; the
remainder of the scenario is as claimed): starting from `[1,2,3]` with size 3
and capacity 3, `PushBack(4)` yields size 4, capacity 6, content `[1,2,3,4]`;
`Erase(begin()+1)` yields content `[1,3,4]` and size 3; `Insert(begin(), 0)`
yields content `[0,1,3,4]` and size 4. -/
theorem C2_scenario :
    (mkFromList ([1, 2, 3] : List Int)).GetSize = 3
    ∧ (mkFromList ([1, 2, 3] : List Int)).GetCapacity = 3
    ∧ (PushBack (mkFromList ([1, 2, 3] : List Int)) 4).GetSize = 4
    ∧ (PushBack (mkFromList ([1, 2, 3] : List Int)) 4).GetCapacity = 6
    ∧ live (PushBack (mkFromList ([1, 2, 3] : List Int)) 4) = [1, 2, 3, 4]
    ∧ (Erase (PushBack (mkFromList ([1, 2, 3] : List Int)) 4) 1).1.GetSize = 3
    ∧ live (Erase (PushBack (mkFromList ([1, 2, 3] : List Int)) 4) 1).1 = [1, 3, 4]
    ∧ (Insert (Erase (PushBack (mkFromList ([1, 2, 3] : List Int)) 4) 1).1 0 0).1.GetSize = 4
    ∧ live (Insert (Erase (PushBack (mkFromList ([1, 2, 3] : List Int)) 4) 1).1 0 0).1
        = [0, 1, 3, 4] := by
  decide

/-- C3: `At(i)` fails with the out-of-range condition iff `i ≥ GetSize()`
(capacity never enters the check — the test in the source compares `index`
only against `size_` — so an index into reserved-but-unused capacity fails
too), and for `i < GetSize()` it returns exactly the element `operator[](i)`
reads.  `At` reads but never writes the vector (it is embedded as a pure
function of the state), so a failing call leaves the array unchanged. -/
theorem C3_At_spec (v : SimpleVector α) (i : Nat) :
    (At v i = Except.error ("Out of range") ↔ v.GetSize ≤ i)
    ∧ (i < v.GetSize → At v i = Except.ok (v.get i)) := by
  simp only [At, GetSize, SimpleVector.get]
  constructor
  · by_cases h : v.size_ ≤ i
    · rw [if_pos h]
      simp [h]
    · rw [if_neg h]
      simp [h]
  · intro hi
    rw [if_neg (by omega)]

/-- Witness for C3 at a concrete vector: a valid index returns the
`operator[]` element, one slot past the end fails. -/
theorem C3_witness :
    At (mkFromList ([7] : List Int)) 0 = Except.ok ((mkFromList ([7] : List Int)).get 0)
    ∧ At (mkFromList ([7] : List Int)) 1 = Except.error ("Out of range") :=
  ⟨(C3_At_spec (mkFromList ([7] : List Int)) 0).2 (by decide),
   (C3_At_spec (mkFromList ([7] : List Int)) 1).1.mpr (by decide)⟩

/-- C4: on a well-formed vector, `PushBack(x)` grows the capacity to exactly
`max(1, capacity * 2)` when `size == capacity`; in all cases it writes `x` at
index equal to the old size, increments the size by exactly one, and keeps
every previously stored element unchanged and in the same relative order
(the new live range is the old one with `x` appended). -/
theorem C4_PushBack_spec (v : SimpleVector α) (x : α) (h : WF v) :
    (v.size_ = v.capacity_ → (PushBack v x).GetCapacity = max 1 (v.capacity_ * 2))
    ∧ (PushBack v x).GetSize = v.GetSize + 1
    ∧ (PushBack v x).get v.GetSize = x
    ∧ live (PushBack v x) = live v ++ [x] := by
  have hlive := PushBack_live v x h
  have hwf := PushBack_WF v x h
  have hsz := PushBack_size v x
  refine ⟨?_, hsz, ?_, hlive⟩
  · intro heq
    show (PushBack v x).capacity_ = _
    rw [PushBack_capacity_of_ge v x (by omega)]
    split <;> omega
  · have hg := live_getD (PushBack v x) v.size_ hwf (by rw [hsz]; omega)
    rw [hlive] at hg
    show (PushBack v x).data_.getD v.size_ default = x
    rw [← hg]
    have hinst := getD_at_length (live v) x [] default
    rw [live_length v h] at hinst
    exact hinst

/-- Witness for C4 at a concrete full vector (size 1 = capacity 1). -/
theorem C4_witness :
    (PushBack (mkFromList ([5] : List Int)) 9).GetCapacity = max 1 (1 * 2)
    ∧ (PushBack (mkFromList ([5] : List Int)) 9).GetSize
        = (mkFromList ([5] : List Int)).GetSize + 1
    ∧ (PushBack (mkFromList ([5] : List Int)) 9).get (mkFromList ([5] : List Int)).GetSize = 9
    ∧ live (PushBack (mkFromList ([5] : List Int)) 9)
        = live (mkFromList ([5] : List Int)) ++ [9] :=
  have h := C4_PushBack_spec (mkFromList ([5] : List Int)) 9 (by decide)
  ⟨h.1 (by decide), h.2.1, h.2.2.1, h.2.2.2⟩

/-- C5: `Resize(n)` always sets the size to `n`; growing past the capacity
reallocates to exactly `n`, keeps the first `size` elements and
default-initializes `[size, n)`; growing within the capacity keeps the
capacity and buffer and default-initializes the newly exposed `[size, n)`;
shrinking keeps the capacity, the buffer, and hence the first `n` elements.
Consequently `Resize(k)` then `Resize(j)` with `j ≤ k ≤ size` keeps the first
`j` elements and leaves `GetSize() = j`. -/
theorem C5_Resize_spec (v : SimpleVector α) (n : Nat) (h : WF v) :
    (Resize v n).GetSize = n
    ∧ (v.capacity_ < n →
        (Resize v n).GetCapacity = n
        ∧ live (Resize v n) = live v ++ List.replicate (n - v.size_) default)
    ∧ (v.size_ < n → n ≤ v.capacity_ →
        (Resize v n).GetCapacity = v.capacity_
        ∧ live (Resize v n) = live v ++ List.replicate (n - v.size_) default)
    ∧ (n ≤ v.size_ →
        (Resize v n).GetCapacity = v.capacity_
        ∧ (Resize v n).data_ = v.data_
        ∧ live (Resize v n) = (live v).take n)
    ∧ (∀ k j, j ≤ k → k ≤ v.size_ →
        (Resize (Resize v k) j).GetSize = j
        ∧ live (Resize (Resize v k) j) = (live v).take j) := by
  obtain ⟨h1, h2⟩ := h
  refine ⟨Resize_size v n, ?_, ?_, ?_, ?_⟩
  · intro hc
    exact ⟨Resize_capacity_of_gt v n hc (by omega), Resize_live_of_gt v n ⟨h1, h2⟩ hc⟩
  · intro hs hc
    exact ⟨Resize_capacity_of_le v n hc, Resize_live_of_mid v n ⟨h1, h2⟩ hc hs⟩
  · intro hs
    refine ⟨Resize_capacity_of_le v n (by omega), ?_, Resize_live_of_le v n hs (by omega)⟩
    rw [Resize_of_le v n hs (by omega)]
  · intro k j hjk hks
    have e1 : Resize v k = { v with size_ := k } := Resize_of_le v k hks (by omega)
    have e2 : Resize (Resize v k) j = { v with size_ := j } := by
      rw [e1]
      exact Resize_of_le _ j hjk (Nat.le_trans hjk (Nat.le_trans hks h2))
    refine ⟨rfl, ?_⟩
    rw [e2]
    simp only [live]
    rw [List.take_take]
    congr 1
    omega

/-- Witness for C5: resizing `[1,2]` (size 2, capacity 2) to 3 grows the
capacity to 3 and default-fills the new slot. -/
theorem C5_witness :
    (Resize (mkFromList ([1, 2] : List Int)) 3).GetCapacity = 3
    ∧ live (Resize (mkFromList ([1, 2] : List Int)) 3)
        = live (mkFromList ([1, 2] : List Int))
          ++ List.replicate (3 - (mkFromList ([1, 2] : List Int)).size_) default :=
  (C5_Resize_spec (mkFromList ([1, 2] : List Int)) 3 (by decide)).2.1 (by decide)

/-- C6: for two distinct `ArrayPtr` instances (`aliased = false` models
`this != &other`), copy-assignment stores the source's handle into the target
and nulls the source — it transfers instead of cloning, exactly like the move
path — and both self-copy-assignment and self-move-assignment
(`aliased = true`, both sides the same object) return with nothing changed. -/
theorem C6_ArrayPtr_assignment (a b : ArrayPtr) :
    ArrayPtr.copyAssign a b false = ({ raw_ptr_ := b.raw_ptr_ }, { raw_ptr_ := none })
    ∧ ArrayPtr.moveAssign a b false = ({ raw_ptr_ := b.raw_ptr_ }, { raw_ptr_ := none })
    ∧ ArrayPtr.copyAssign a a true = (a, a)
    ∧ ArrayPtr.moveAssign a a true = (a, a) :=
  ⟨rfl, rfl, rfl, rfl⟩

/-- C7: every vector reachable from the construction variants by `PushBack`,
`PopBack` (on a nonempty vector), `Insert` (position in `[begin, end]`),
`Erase` (position in `[begin, end)`), `Resize`, `Reserve`, `Clear` and
`swap` satisfies the invariant `0 ≤ size ≤ capacity`. -/
theorem C7_size_le_capacity (v : SimpleVector α) (h : Reachable v) :
    0 ≤ v.GetSize ∧ v.GetSize ≤ v.GetCapacity :=
  ⟨Nat.zero_le _, reachable_size_le_capacity v h⟩

/-- Witness for C7 at a concrete reachable state (a push onto a full
vector). -/
theorem C7_witness :
    0 ≤ (PushBack (mkFromList ([3] : List Int)) 4).GetSize
    ∧ (PushBack (mkFromList ([3] : List Int)) 4).GetSize
        ≤ (PushBack (mkFromList ([3] : List Int)) 4).GetCapacity :=
  C7_size_le_capacity _
    (Reachable.pushBack_mem (mkFromList ([3] : List Int)) 4
      (Reachable.mkFromList_mem [3]))

/-- C8: inserting `x` at any position `j` of `[begin, end]` and then erasing
at the position returned by `Insert` (the same element index `j`) restores
the original size and the original element sequence. -/
theorem C8_insert_erase_roundtrip (v : SimpleVector α) (j : Nat) (x : α) (h : WF v)
    (hj : j ≤ v.size_) :
    (Erase (Insert v j x).1 (Insert v j x).2).1.GetSize = v.GetSize
    ∧ live (Erase (Insert v j x).1 (Insert v j x).2).1 = live v := by
  have hsnd := Insert_snd v j x
  have hwf2 := Insert_WF v j x h
  have hsz2 := Insert_size v j x
  have hlive2 := Insert_live v j x h hj
  have hll : (live v).length = v.size_ := live_length v h
  constructor
  · show (Erase (Insert v j x).1 (Insert v j x).2).1.size_ = v.size_
    rw [Erase_size, hsz2]
    omega
  · rw [hsnd]
    rw [Erase_live (Insert v j x).1 j hwf2 (by rw [hsz2]; omega)]
    rw [hlive2]
    have htk : ((live v).take j ++ (x :: (live v).drop j)).take j = (live v).take j :=
      List.take_left' (by simp only [List.length_take]; omega)
    have hdr : ((live v).take j ++ (x :: (live v).drop j)).drop (j + 1) = (live v).drop j := by
      have hre : (live v).take j ++ (x :: (live v).drop j)
          = ((live v).take j ++ [x]) ++ (live v).drop j := by
        simp
      rw [hre]
      exact List.drop_left' (by simp only [List.length_append, List.length_take,
        List.length_cons, List.length_nil]; omega)
    rw [htk, hdr, List.take_append_drop]

/-- Witness for C8: insert 9 in the middle of `[1,2]`, erase it again. -/
theorem C8_witness :
    (Erase (Insert (mkFromList ([1, 2] : List Int)) 1 9).1
        (Insert (mkFromList ([1, 2] : List Int)) 1 9).2).1.GetSize
      = (mkFromList ([1, 2] : List Int)).GetSize
    ∧ live (Erase (Insert (mkFromList ([1, 2] : List Int)) 1 9).1
        (Insert (mkFromList ([1, 2] : List Int)) 1 9).2).1
      = live (mkFromList ([1, 2] : List Int)) :=
  C8_insert_erase_roundtrip (mkFromList ([1, 2] : List Int)) 1 9 (by decide) (by decide)

/-- C9: on well-formed vectors, `operator==` holds exactly when the sizes
match and all corresponding elements are equal in order; `operator<` decides
exactly the lexicographic strict order on the element sequences
(`List.lt`, built from element-wise `<`); and `!=`, `>`, `<=`, `>=` are the
stated derivations from `<` and `==`. -/
theorem C9_comparison_operators [LinearOrder α] (l r : SimpleVector α)
    (hl : WF l) (hr : WF r) :
    (opEq l r = true ↔ l.GetSize = r.GetSize ∧ ∀ i, i < l.GetSize → l.get i = r.get i)
    ∧ (opLt l r = true ↔ List.lt (live l) (live r))
    ∧ opNe l r = !opEq l r
    ∧ opGt l r = opLt r l
    ∧ opLe l r = (opLt l r || opEq l r)
    ∧ opGe l r = (opLt r l || opEq r l) :=
  ⟨opEq_iff l r hl hr, lexCompare_iff (live l) (live r), rfl, rfl, rfl, rfl⟩

/-- Witness for C9 on `[1,2]` and `[1,3]`: equality of a vector with itself,
and the strict lexicographic ordering between the two. -/
theorem C9_witness :
    opEq (mkFromList ([1, 2] : List Int)) (mkFromList ([1, 2] : List Int)) = true
    ∧ List.lt (live (mkFromList ([1, 2] : List Int))) (live (mkFromList ([1, 3] : List Int))) :=
  ⟨(C9_comparison_operators (mkFromList ([1, 2] : List Int)) (mkFromList ([1, 2] : List Int))
      (by decide) (by decide)).1.mpr (by decide),
   (C9_comparison_operators (mkFromList ([1, 2] : List Int)) (mkFromList ([1, 3] : List Int))
      (by decide) (by decide)).2.1.mp (by decide)⟩

/-- C10: inserting at `end()` (index `GetSize()`) is exactly `PushBack`: the
two calls produce identical states (same size, capacity and buffer), and the
returned iterator points at the new last element (index `GetSize() - 1` of
the result). -/
theorem C10_insert_at_end_eq_pushBack (v : SimpleVector α) (x : α) :
    Insert v v.GetSize x = (PushBack v x, v.GetSize)
    ∧ (Insert v v.GetSize x).2 = (PushBack v x).GetSize - 1 := by
  constructor
  · by_cases hge : v.size_ ≥ v.capacity_
    · rw [show v.GetSize = v.size_ from rfl, Insert_of_ge v v.size_ x hge,
        PushBack_of_ge v x hge]
      have hdrop : (v.data_.take v.size_).drop v.size_ = [] :=
        List.drop_eq_nil_of_le (List.length_take_le ..)
      rw [hdrop]
      rfl
    · rw [show v.GetSize = v.size_ from rfl, Insert_of_lt v v.size_ x (by omega),
        PushBack_of_lt v x (by omega)]
      rw [show v.size_ - v.size_ = 0 from by omega]
      rfl
  · rw [Insert_snd]
    show v.size_ = (PushBack v x).size_ - 1
    rw [PushBack_size]
    omega
